import Mathlib

/-!
Verification of the safest-route generator (`get_safest_path.py`).

The development embeds, as executable Lean definitions over ℚ (and ℝ for the
exponential decay), the edge-cost model, the spatial aggregation step, the
night-mode scaling, the weight propagation onto the routable graph, the
shortest-path phase, and the geocode cache, and proves the stated properties
about them.
-/

namespace Lumen

/-! ### Constants (CONFIG section of `get_safest_path.py`) -/

/-- `B_INCIDENT = 1.20` — risk goes up with incidents. -/
def B_INCIDENT : ℚ := 1.20

/-- `C_CAMERA = 0.30` — benefit goes down with cameras. -/
def C_CAMERA : ℚ := 0.30

/-- `NIGHT_RISK_MULT = 1.25`. -/
def NIGHT_RISK_MULT : ℚ := 1.25

/-- `NIGHT_CAMERA_MULT = 1.35`. -/
def NIGHT_CAMERA_MULT : ℚ := 1.35

/-! ### Edge rows and the edge-cost model (`edge_cost`, lines 230–236) -/

/-- One row of the projected edges GeoDataFrame, as consumed by `edge_cost`:
`length` is the `length` column (absent when the row has no such key, in which
case the code falls back to `row.geometry.length`), `geomLength` is the length
of the row geometry, and `sum_inc` / `cnt_cam` are the aggregated incident
weight and (night-scaled) camera count columns. -/
structure EdgeRow where
  length : Option ℚ
  geomLength : ℚ
  sum_inc : ℚ
  cnt_cam : ℚ

/-- `edge_cost(row)`:
`length = float(row.get("length", row.geometry.length))`,
`up = 1.0 + B_INCIDENT * row["sum_inc"]`,
`dn = 1.0 + C_CAMERA * row["cnt_cam"]`,
`return max(0.1, length * (up / dn))`. -/
def edge_cost (row : EdgeRow) : ℚ :=
  let length := row.length.getD row.geomLength
  let up := 1 + B_INCIDENT * row.sum_inc
  let dn := 1 + C_CAMERA * row.cnt_cam
  max 0.1 (length * (up / dn))

/-- The unclamped value `length * (up / dn)` of `edge_cost`. -/
def raw_cost (len w c : ℚ) : ℚ :=
  len * ((1 + B_INCIDENT * w) / (1 + C_CAMERA * c))

/-! ### Incident decay (`incident_decay`, lines 174–179)

The Python function receives the parsed timestamp (or a non-datetime value for
an absent/unparsable one) and measures the age in hours against the wall
clock. The embedding takes that age directly: `none` stands for a value that
is not a `datetime`, `some a` for a timestamp whose age is `a` hours. -/

/-- `TAU_H = 12.0` — incident decay constant (hours). -/
def TAU_H : ℝ := 12

/-- `incident_decay(dt_val)`: returns `1.0` when the value is not a datetime;
otherwise clamps the age at 0 (`age_h = max(age_h, 0.0)`) and returns
`exp(-age_h / TAU_H)`. -/
noncomputable def incident_decay (ageHours : Option ℝ) : ℝ :=
  match ageHours with
  | none => 1
  | some a => Real.exp (-(max a 0) / TAU_H)

/-! ### Spatial aggregation (`counts_near_edges`, lines 157–172) and the
night-mode scaling applied around it (lines 219–227)

A projected risk point is a planar coordinate; whether the buffered disk of a
point intersects an edge geometry is delegated to shapely in the Python code,
so the embedding abstracts that geometric test as a boolean parameter. -/

/-- A planar (projected) coordinate. -/
abbrev Point : Type := ℚ × ℚ

/-- An edge of the osmnx graph as enumerated by `graph_to_gdfs`: its
`(u, v, key)` identity and its `length` attribute (meters). -/
structure RawEdge where
  u : Nat
  v : Nat
  k : Nat
  length : ℚ
deriving DecidableEq

/-- `counts_near_edges(edges_gdf, pts_gdf, radius_m, values)` restricted to a
single edge: the sum of the `values` entries of the points whose buffered
disk intersects the edge geometry (`sjoin` with predicate `intersects`
followed by a group-by sum; an edge hit by no point gets 0). The geometric
test — buffering by the radius and intersecting — is the `near` parameter. -/
def counts_near_edges (near : RawEdge → Point → Bool) (pts : List (Point × ℚ))
    (e : RawEdge) : ℚ :=
  ((pts.filter (fun pw => near e pw.1)).map Prod.snd).sum

/-- The `sum_inc` column (lines 219–222): per-point incident weights (the
decay values), scaled by `NIGHT_RISK_MULT` before aggregation when the night
flag is set, then aggregated. -/
def sum_inc (near : RawEdge → Point → Bool) (isNight : Bool)
    (incPts : List (Point × ℚ)) (e : RawEdge) : ℚ :=
  let weighted :=
    if isNight then incPts.map (fun pw => (pw.1, pw.2 * NIGHT_RISK_MULT)) else incPts
  counts_near_edges near weighted e

/-- The `cnt_cam` column (lines 224–227): camera points carry value 1.0 each,
are aggregated, and the aggregate is scaled by `NIGHT_CAMERA_MULT` after
aggregation when the night flag is set. -/
def cnt_cam (near : RawEdge → Point → Bool) (isNight : Bool)
    (camPts : List Point) (e : RawEdge) : ℚ :=
  let base := counts_near_edges near (camPts.map (fun p => (p, 1))) e
  if isNight then base * NIGHT_CAMERA_MULT else base

/-! ### Route search (lines 259–264)

`nx.shortest_path(G, o_node, d_node, weight="weight")` returns a node
sequence of minimal total weight (for a multigraph, each consecutive pair
contributes the minimum weight among its parallel edges); it raises
`NetworkXNoPath` when no path connects the endpoints. The embedding
enumerates all walks up to the graph size and selects one of minimal weight;
`route_phase` then applies the code's own `< 2`-node check. -/

/-- The edges leaving node `a`. -/
def step_edges (es : List RawEdge) (a : Nat) : List RawEdge :=
  es.filter (fun e => e.u == a)

/-- All walks from `src` to `dst` with at most `fuel` nodes, as node
sequences. -/
def walks (es : List RawEdge) : Nat → Nat → Nat → List (List Nat)
  | 0, _, _ => []
  | fuel+1, src, dst =>
    (if src = dst then [[src]] else []) ++
    (step_edges es src).flatMap
      (fun e => (walks es fuel e.v dst).map (fun p => src :: p))

/-- The weight of the step from `a` to `b`: the minimum of `w` over the
parallel edges from `a` to `b` (0 if there is none; walks never take such a
step). -/
def minParallel (es : List RawEdge) (w : RawEdge → ℚ) (a b : Nat) : ℚ :=
  match (es.filter (fun e => e.u == a && e.v == b)).map w with
  | [] => 0
  | x :: xs => xs.foldl min x

/-- Total weight of a node sequence. -/
def pathWeight (es : List RawEdge) (w : RawEdge → ℚ) : List Nat → ℚ
  | [] => 0
  | [_] => 0
  | a :: b :: rest => minParallel es w a b + pathWeight es w (b :: rest)

/-- First path of minimal weight in a list of paths. -/
def argminPath (es : List RawEdge) (w : RawEdge → ℚ) :
    List (List Nat) → Option (List Nat)
  | [] => none
  | p :: ps =>
    match argminPath es w ps with
    | none => some p
    | some q => if pathWeight es w p ≤ pathWeight es w q then some p else some q

/-- `nx.shortest_path` on the weighted graph: a minimal-weight node sequence
from `o` to `d`, or `none` (the `NetworkXNoPath` exception) when no walk
connects them. -/
def shortest_path (nodes : List Nat) (es : List RawEdge) (w : RawEdge → ℚ)
    (o d : Nat) : Option (List Nat) :=
  argminPath es w (walks es (nodes.length + 1) o d)

/-- The two ways the route phase fails: `nx.shortest_path` raising
`NetworkXNoPath`, and the code's own guard
`if len(route) < 2: raise RuntimeError(...)`. -/
inductive RouteError where
  | networkxNoPath : RouteError
  | noRoute : RouteError
deriving DecidableEq

/-- Lines 262–264: run the weighted search, propagate its failure, and fail
when the returned path has fewer than 2 nodes; otherwise return the route. -/
def route_phase (nodes : List Nat) (es : List RawEdge) (w : RawEdge → ℚ)
    (o d : Nat) : Except RouteError (List Nat) :=
  match shortest_path nodes es w o d with
  | none => Except.error RouteError.networkxNoPath
  | some route =>
    if route.length < 2 then Except.error RouteError.noRoute
    else Except.ok route

/-- One directed edge relation step of the graph. -/
def edge_step (es : List RawEdge) (a b : Nat) : Prop :=
  ∃ e ∈ es, e.u = a ∧ e.v = b

/-- `d` lies in the connected component reachable from `o`. -/
def Reachable (es : List RawEdge) : Nat → Nat → Prop :=
  Relation.ReflTransGen (edge_step es)

/-- The per-edge weight produced by the whole pipeline (lines 218–236): the
aggregated signals feed `edge_cost`; an osmnx edge row carries its `length`
attribute. -/
def pipeline_weight (near_i near_c : RawEdge → Point → Bool) (isNight : Bool)
    (incPts : List (Point × ℚ)) (camPts : List Point) (e : RawEdge) : ℚ :=
  edge_cost ⟨some e.length, e.length,
    sum_inc near_i isNight incPts e, cnt_cam near_c isNight camPts e⟩

/-! ### Weight propagation onto the routable graph (lines 239–257)

The computed per-edge costs (`edges["weight"]`, indexed by `(u, v, key)`)
are written back onto the networkx graph edge by edge: exact identity match
first, then the nearest-length row among those sharing `(u, v)`, then the
edge's own attributes. -/

/-- One computed-cost row of the edges GeoDataFrame: the `(u, v, key)`
index, the `length` column and the computed `weight`. -/
structure CostRow where
  u : Nat
  v : Nat
  k : Nat
  length : ℚ
  weight : ℚ
deriving DecidableEq

/-- The attribute dict `data` of one edge of `G`: an optional `length`
attribute, the length of an optional `geometry` attribute, and an optional
pre-existing `weight` attribute. -/
structure GEdgeData where
  length : Option ℚ
  geomLength : Option ℚ
  weight : Option ℚ

/-- `(candidates["length"] - geom_len).abs().sort_values().index[0]`: the
candidate row whose `length` is closest to `geom_len` (first one on a tie). -/
def closestRow (geomLen : ℚ) (r0 : CostRow) (rs : List CostRow) : CostRow :=
  rs.foldl
    (fun best r => if |r.length - geomLen| < |best.length - geomLen| then r else best)
    r0

/-- The weight assigned to graph edge `(u, v, k)` with attributes `data`:
`w = weights_by_edge.get((u, v, k))`; if `None`, try the rows sharing
`(u, v)` — a single row's weight directly, otherwise the row with `length`
closest to `geom_len = data.get("length", geometry length or 1.0)`; if the
lookup raises (no row shares `(u, v)`),
`w = data.get("weight", data.get("length", 1.0))`. -/
def propagate_weight (rows : List CostRow) (u v k : Nat) (data : GEdgeData) : ℚ :=
  match rows.find? (fun r => r.u == u && r.v == v && r.k == k) with
  | some r => r.weight
  | none =>
    match rows.filter (fun r => r.u == u && r.v == v) with
    | [] => data.weight.getD (data.length.getD 1)
    | [r] => r.weight
    | r :: rs =>
      let geomLen := data.length.getD (data.geomLength.getD 1)
      (closestRow geomLen r rs).weight

/-! ### Geocode cache (`load_cache`/`save_cache`, lines 64–74, and the
resolution step `cache.get(q) or mapbox_geocode(q, …)` of `read_cameras` /
`read_incidents`, lines 107–109 and 142–144) -/

/-- A resolved coordinate, `(lon, lat)`. -/
abbrev Coord : Type := ℚ × ℚ

/-- The in-memory cache is a Python dict `q ↦ (lon, lat)`; embedded as an
association list whose keys are unique. Lookup: first entry with the key. -/
def cache_get (cache : List (String × Coord)) (q : String) : Option Coord :=
  (cache.find? (fun p => p.1 == q)).map Prod.snd

/-- Dict assignment `cache[q] = coord`: overwrite the entry in place if the
key is present, append otherwise. -/
def cache_put (cache : List (String × Coord)) (q : String) (c : Coord) :
    List (String × Coord) :=
  match cache with
  | [] => [(q, c)]
  | p :: rest => if p.1 == q then (q, c) :: rest else p :: cache_put rest q c

/-- State threaded through one run's resolutions: the in-memory cache plus a
counter of geocoding-provider calls (for the at-most-once property). -/
structure ResolveState where
  cache : List (String × Coord)
  providerCalls : Nat

/-- One resolution step, `coord = cache.get(q) or mapbox_geocode(q, prox)`
followed by `if coord: cache[q] = coord`. A cached coordinate is a (truthy)
pair, so the provider is consulted exactly when the query is not cached; a
provider failure (`None`) stores nothing. -/
def resolve_coord (provider : String → Option Coord) (st : ResolveState)
    (q : String) : Option Coord × ResolveState :=
  match cache_get st.cache q with
  | some c => (some c, st)
  | none =>
    match provider q with
    | some c => (some c, ⟨cache_put st.cache q c, st.providerCalls + 1⟩)
    | none => (none, ⟨st.cache, st.providerCalls + 1⟩)

/-- `pd.DataFrame(rows).drop_duplicates("q")`: keep the first row for each
query string. -/
def drop_duplicates_q (rows : List (String × Coord)) : List (String × Coord) :=
  rows.foldl (fun acc r => if acc.any (fun p => p.1 == r.1) then acc else acc ++ [r]) []

/-- `save_cache(cache, path)` (lines 70–74): `if not cache: return` — an
empty dict writes nothing, leaving the file as it was; otherwise the rows
(deduplicated by query) replace the file. `disk` is the current file
content (`none`: no file). -/
def save_cache (cache : List (String × Coord))
    (disk : Option (List (String × Coord))) : Option (List (String × Coord)) :=
  if cache.isEmpty then disk else some (drop_duplicates_q cache)

end Lumen

/-! ### Supporting lemmas -/

namespace Lumen

theorem edge_cost_def (row : EdgeRow) :
    edge_cost row =
      max 0.1 ((row.length.getD row.geomLength) *
        ((1 + 1.20 * row.sum_inc) / (1 + 0.30 * row.cnt_cam))) := rfl

theorem edge_cost_floor (row : EdgeRow) : (0.1 : ℚ) ≤ edge_cost row :=
  le_max_left _ _

theorem edge_cost_eq_max_raw (len : Option ℚ) (g w c : ℚ) :
    edge_cost ⟨len, g, w, c⟩ = max 0.1 (raw_cost (len.getD g) w c) := rfl

theorem raw_cost_lt_raw_cost_of_inc_lt (len w1 w2 c : ℚ)
    (hlen : 0 < len) (hc : 0 ≤ c) (h12 : w1 < w2) :
    raw_cost len w1 c < raw_cost len w2 c := by
  unfold raw_cost
  have hdn : (0:ℚ) < 1 + C_CAMERA * c := by
    have : (0:ℚ) ≤ C_CAMERA * c := by
      have hC : (0:ℚ) ≤ C_CAMERA := by norm_num [C_CAMERA]
      exact mul_nonneg hC hc
    linarith
  have hup : 1 + B_INCIDENT * w1 < 1 + B_INCIDENT * w2 := by
    have hB : (0:ℚ) < B_INCIDENT := by norm_num [B_INCIDENT]
    nlinarith
  have := div_lt_div_of_pos_right hup hdn
  exact mul_lt_mul_of_pos_left this hlen

theorem raw_cost_mono_inc (len w1 w2 c : ℚ)
    (hlen : 0 ≤ len) (hc : 0 ≤ c) (h12 : w1 ≤ w2) :
    raw_cost len w1 c ≤ raw_cost len w2 c := by
  unfold raw_cost
  have hdn : (0:ℚ) < 1 + C_CAMERA * c := by
    have hC : (0:ℚ) ≤ C_CAMERA := by norm_num [C_CAMERA]
    nlinarith
  have hup : 1 + B_INCIDENT * w1 ≤ 1 + B_INCIDENT * w2 := by
    have hB : (0:ℚ) < B_INCIDENT := by norm_num [B_INCIDENT]
    nlinarith
  exact mul_le_mul_of_nonneg_left (div_le_div_of_nonneg_right hup hdn.le) hlen

theorem raw_cost_anti_cam (len w c1 c2 : ℚ)
    (hw : 0 ≤ w) (hc1 : 0 ≤ c1) (h12 : c1 < c2) (hpos : 0 < raw_cost len w c1) :
    raw_cost len w c2 < raw_cost len w c1 := by
  unfold raw_cost at hpos ⊢
  have hC : (0:ℚ) < C_CAMERA := by norm_num [C_CAMERA]
  have hdn1 : (0:ℚ) < 1 + C_CAMERA * c1 := by nlinarith
  have hdn2 : (0:ℚ) < 1 + C_CAMERA * c2 := by nlinarith
  have hup : (0:ℚ) < 1 + B_INCIDENT * w := by
    have hB : (0:ℚ) < B_INCIDENT := by norm_num [B_INCIDENT]
    nlinarith
  have hlen : 0 < len := by
    by_contra hle
    push_neg at hle
    have : len * ((1 + B_INCIDENT * w) / (1 + C_CAMERA * c1)) ≤ 0 :=
      mul_nonpos_of_nonpos_of_nonneg hle (le_of_lt (div_pos hup hdn1))
    linarith
  have hlt : (1 + B_INCIDENT * w) / (1 + C_CAMERA * c2)
      < (1 + B_INCIDENT * w) / (1 + C_CAMERA * c1) := by
    apply div_lt_div_of_pos_left hup hdn1
    nlinarith
  exact mul_lt_mul_of_pos_left hlt hlen

theorem tau_pos : (0 : ℝ) < TAU_H := by norm_num [TAU_H]

theorem incident_decay_none : incident_decay none = 1 := rfl

theorem incident_decay_of_nonneg (a : ℝ) (ha : 0 ≤ a) :
    incident_decay (some a) = Real.exp (-a / TAU_H) := by
  have hmax : max a (0:ℝ) = a := max_eq_left ha
  simp only [incident_decay, hmax]

theorem incident_decay_of_neg (a : ℝ) (ha : a < 0) :
    incident_decay (some a) = 1 := by
  have hmax : max a (0:ℝ) = 0 := max_eq_right ha.le
  simp only [incident_decay, hmax]
  norm_num

theorem incident_decay_zero : incident_decay (some 0) = 1 := by
  rw [incident_decay_of_nonneg 0 (le_refl 0)]
  norm_num

theorem incident_decay_strict_anti (a b : ℝ) (ha : 0 ≤ a) (hab : a < b) :
    incident_decay (some b) < incident_decay (some a) := by
  rw [incident_decay_of_nonneg a ha, incident_decay_of_nonneg b (le_trans ha hab.le)]
  apply Real.exp_lt_exp.mpr
  apply div_lt_div_of_pos_right _ tau_pos
  exact neg_lt_neg hab

theorem incident_decay_tendsto_zero :
    Filter.Tendsto (fun a : ℝ => incident_decay (some a)) Filter.atTop (nhds 0) := by
  have h1 : (fun a : ℝ => incident_decay (some a))
      =ᶠ[Filter.atTop] fun a => Real.exp (-a / TAU_H) := by
    filter_upwards [Filter.eventually_ge_atTop (0:ℝ)] with a ha
    exact incident_decay_of_nonneg a ha
  rw [Filter.tendsto_congr' h1]
  have hneg : Filter.Tendsto (fun a : ℝ => -a) Filter.atTop Filter.atBot :=
    Filter.tendsto_neg_atTop_atBot
  have h2 : Filter.Tendsto (fun a : ℝ => -a / TAU_H) Filter.atTop Filter.atBot :=
    Filter.Tendsto.atBot_div_const tau_pos hneg
  exact Real.tendsto_exp_atBot.comp h2

theorem counts_near_edges_map_mul (near : RawEdge → Point → Bool)
    (pts : List (Point × ℚ)) (e : RawEdge) (r : ℚ) :
    counts_near_edges near (pts.map (fun pw => (pw.1, pw.2 * r))) e
      = ((pts.filter (fun pw => near e pw.1)).map (fun pw => r * pw.2)).sum := by
  unfold counts_near_edges
  rw [List.filter_map, List.map_map]
  have h : ((pts.filter (fun pw => near e pw.1)).map (fun pw => pw.2 * r)).sum
      = ((pts.filter (fun pw => near e pw.1)).map (fun pw => r * pw.2)).sum := by
    simp [mul_comm]
  exact h

theorem counts_near_edges_mul (near : RawEdge → Point → Bool)
    (pts : List (Point × ℚ)) (e : RawEdge) (r : ℚ) :
    counts_near_edges near pts e * r
      = ((pts.filter (fun pw => near e pw.1)).map (fun pw => r * pw.2)).sum := by
  unfold counts_near_edges
  rw [List.sum_map_mul_left]
  ring

theorem walks_sound (es : List RawEdge) (fuel : Nat) : ∀ src dst : Nat,
    ∀ p ∈ walks es fuel src dst,
    Reachable es src dst ∧ p.head? = some src ∧ p.getLast? = some dst := by
  induction fuel with
  | zero =>
    intro src dst p hp
    simp [walks] at hp
  | succ n ih =>
    intro src dst p hp
    simp only [walks, List.mem_append] at hp
    rcases hp with hp | hp
    · by_cases h : src = dst
      · rw [if_pos h] at hp
        have hp1 : p = [src] := by simpa using hp
        subst hp1
        subst h
        exact ⟨Relation.ReflTransGen.refl, rfl, rfl⟩
      · rw [if_neg h] at hp
        simp at hp
    · rcases List.mem_flatMap.mp hp with ⟨e, he, hpe⟩
      rcases List.mem_map.mp hpe with ⟨p1, hp1, hcons⟩
      rcases ih e.v dst p1 hp1 with ⟨hreach, hhead, hlast⟩
      have hes : e ∈ es ∧ e.u = src := by
        have h2 := List.mem_filter.mp he
        exact ⟨h2.1, by simpa using h2.2⟩
      subst hcons
      refine ⟨Relation.ReflTransGen.head ⟨e, hes.1, hes.2, rfl⟩ hreach, rfl, ?_⟩
      cases p1 with
      | nil => simp at hhead
      | cons x xs =>
        rw [List.getLast?_cons_cons]
        exact hlast

theorem argminPath_mem (es : List RawEdge) (w : RawEdge → ℚ) :
    ∀ ps : List (List Nat), ∀ p : List Nat, argminPath es w ps = some p → p ∈ ps := by
  intro ps
  induction ps with
  | nil =>
    intro p h
    simp [argminPath] at h
  | cons q qs ih =>
    intro p h
    simp only [argminPath] at h
    rcases hq : argminPath es w qs with _ | q2
    · rw [hq] at h
      have hp : q = p := by simpa using h
      rw [← hp]
      exact List.mem_cons_self q qs
    · rw [hq] at h
      have h2 : (if pathWeight es w q ≤ pathWeight es w q2
          then some q else some q2) = some p := h
      by_cases hle : pathWeight es w q ≤ pathWeight es w q2
      · rw [if_pos hle] at h2
        have hp : q = p := by simpa using h2
        rw [← hp]
        exact List.mem_cons_self q qs
      · rw [if_neg hle] at h2
        have hp : q2 = p := by simpa using h2
        rw [← hp]
        exact List.mem_cons.mpr (Or.inr (ih q2 hq))

theorem shortest_path_sound (nodes : List Nat) (es : List RawEdge)
    (w : RawEdge → ℚ) (o d : Nat) (p : List Nat)
    (h : shortest_path nodes es w o d = some p) :
    Reachable es o d ∧ p.head? = some o ∧ p.getLast? = some d :=
  walks_sound es (nodes.length + 1) o d p (argminPath_mem es w _ p h)

theorem shortest_path_eq_none (nodes : List Nat) (es : List RawEdge)
    (w : RawEdge → ℚ) (o d : Nat) (h : ¬ Reachable es o d) :
    shortest_path nodes es w o d = none := by
  rcases hs : shortest_path nodes es w o d with _ | p
  · rfl
  · exact absurd (shortest_path_sound nodes es w o d p hs).1 h

theorem minParallel_congr (es : List RawEdge) (w1 w2 : RawEdge → ℚ)
    (h : ∀ e ∈ es, w1 e = w2 e) (a b : Nat) :
    minParallel es w1 a b = minParallel es w2 a b := by
  unfold minParallel
  have hmap : (es.filter (fun e => e.u == a && e.v == b)).map w1
      = (es.filter (fun e => e.u == a && e.v == b)).map w2 :=
    List.map_congr_left (fun e he => h e (List.mem_of_mem_filter he))
  rw [hmap]

theorem pathWeight_congr (es : List RawEdge) (w1 w2 : RawEdge → ℚ)
    (h : ∀ e ∈ es, w1 e = w2 e) : ∀ p : List Nat,
    pathWeight es w1 p = pathWeight es w2 p := by
  intro p
  induction p with
  | nil => rfl
  | cons a t ih =>
    cases t with
    | nil => rfl
    | cons b rest =>
      simp only [pathWeight]
      rw [minParallel_congr es w1 w2 h a b, ih]

theorem argminPath_congr (es : List RawEdge) (w1 w2 : RawEdge → ℚ)
    (h : ∀ e ∈ es, w1 e = w2 e) : ∀ ps : List (List Nat),
    argminPath es w1 ps = argminPath es w2 ps := by
  intro ps
  induction ps with
  | nil => rfl
  | cons q qs ih =>
    simp only [argminPath]
    rw [ih]
    rcases argminPath es w2 qs with _ | q2
    · rfl
    · show (if pathWeight es w1 q ≤ pathWeight es w1 q2 then some q else some q2)
        = (if pathWeight es w2 q ≤ pathWeight es w2 q2 then some q else some q2)
      rw [pathWeight_congr es w1 w2 h q, pathWeight_congr es w1 w2 h q2]

theorem route_phase_congr (nodes : List Nat) (es : List RawEdge)
    (w1 w2 : RawEdge → ℚ) (h : ∀ e ∈ es, w1 e = w2 e) (o d : Nat) :
    route_phase nodes es w1 o d = route_phase nodes es w2 o d := by
  unfold route_phase shortest_path
  rw [argminPath_congr es w1 w2 h]

theorem sum_inc_nil (near : RawEdge → Point → Bool) (isNight : Bool) (e : RawEdge) :
    sum_inc near isNight [] e = 0 := by
  cases isNight <;> simp [sum_inc, counts_near_edges]

theorem cnt_cam_nil (near : RawEdge → Point → Bool) (isNight : Bool) (e : RawEdge) :
    cnt_cam near isNight [] e = 0 := by
  cases isNight <;> simp [cnt_cam, counts_near_edges]

theorem pipeline_weight_no_risk (near_i near_c : RawEdge → Point → Bool)
    (isNight : Bool) (e : RawEdge) :
    pipeline_weight near_i near_c isNight [] [] e = max 0.1 e.length := by
  unfold pipeline_weight
  rw [edge_cost_def]
  simp only [sum_inc_nil, cnt_cam_nil, Option.getD_some]
  norm_num

theorem closestRow_spec (geomLen : ℚ) (rs : List CostRow) : ∀ r0 : CostRow,
    closestRow geomLen r0 rs ∈ r0 :: rs
    ∧ |(closestRow geomLen r0 rs).length - geomLen| ≤ |r0.length - geomLen|
    ∧ ∀ r ∈ rs, |(closestRow geomLen r0 rs).length - geomLen| ≤ |r.length - geomLen| := by
  induction rs with
  | nil =>
    intro r0
    simp [closestRow]
  | cons a as ih =>
    intro r0
    have hstep : closestRow geomLen r0 (a :: as)
        = closestRow geomLen
            (if |a.length - geomLen| < |r0.length - geomLen| then a else r0) as := rfl
    by_cases h : |a.length - geomLen| < |r0.length - geomLen|
    · rw [hstep, if_pos h]
      rcases ih a with ⟨hmem, hbest, hall⟩
      refine ⟨?_, le_trans hbest h.le, ?_⟩
      · rcases List.mem_cons.mp hmem with h1 | h1
        · exact List.mem_cons.mpr (Or.inr (List.mem_cons.mpr (Or.inl h1)))
        · exact List.mem_cons.mpr (Or.inr (List.mem_cons.mpr (Or.inr h1)))
      · intro r hr
        rcases List.mem_cons.mp hr with h1 | h1
        · rw [h1]
          exact hbest
        · exact hall r h1
    · rw [hstep, if_neg h]
      rcases ih r0 with ⟨hmem, hbest, hall⟩
      push_neg at h
      refine ⟨?_, hbest, ?_⟩
      · rcases List.mem_cons.mp hmem with h1 | h1
        · exact List.mem_cons.mpr (Or.inl h1)
        · exact List.mem_cons.mpr (Or.inr (List.mem_cons.mpr (Or.inr h1)))
      · intro r hr
        rcases List.mem_cons.mp hr with h1 | h1
        · rw [h1]
          exact le_trans hbest h
        · exact hall r h1

theorem cache_get_put_self (cache : List (String × Coord)) (q : String) (c : Coord) :
    cache_get (cache_put cache q c) q = some c := by
  induction cache with
  | nil => simp [cache_put, cache_get, List.find?]
  | cons p rest ih =>
    by_cases h : p.1 == q
    · simp [cache_put, h, cache_get, List.find?]
    · simp only [cache_put, h, if_false, Bool.false_eq_true]
      simpa [cache_get, List.find?, h] using ih

theorem mem_keys_cache_put (cache : List (String × Coord)) (q : String) (c : Coord)
    (x : String) (hx : x ∈ (cache_put cache q c).map Prod.fst) :
    x = q ∨ x ∈ cache.map Prod.fst := by
  induction cache with
  | nil => simpa [cache_put] using hx
  | cons p rest ih =>
    by_cases h : p.1 = q
    · simp only [cache_put, beq_iff_eq, h, if_true, List.map_cons] at hx
      rcases List.mem_cons.mp hx with hx | hx
      · exact Or.inl hx
      · exact Or.inr (by simp [List.mem_cons, hx])
    · simp only [cache_put, beq_iff_eq, h, if_false, List.map_cons] at hx
      rcases List.mem_cons.mp hx with hx | hx
      · exact Or.inr (by simp [hx])
      · rcases ih hx with h1 | h1
        · exact Or.inl h1
        · exact Or.inr (by simp [h1])

theorem nodup_keys_cache_put (cache : List (String × Coord)) (q : String) (c : Coord)
    (hnd : (cache.map Prod.fst).Nodup) :
    ((cache_put cache q c).map Prod.fst).Nodup := by
  induction cache with
  | nil => simp [cache_put]
  | cons p rest ih =>
    rw [List.map_cons, List.nodup_cons] at hnd
    by_cases h : p.1 = q
    · simp only [cache_put, beq_iff_eq, h, if_true, List.map_cons, List.nodup_cons]
      refine ⟨?_, hnd.2⟩
      rw [← h]
      exact hnd.1
    · simp only [cache_put, beq_iff_eq, h, if_false, List.map_cons, List.nodup_cons]
      refine ⟨?_, ih hnd.2⟩
      intro hmem
      rcases mem_keys_cache_put rest q c p.1 hmem with h1 | h1
      · exact h h1
      · exact hnd.1 h1

end Lumen

/-! ### Claim theorems -/

/-- C1: for every edge the computed cost is
`max(0.1, length * ((1 + 1.20 * sum_inc) / (1 + 0.30 * cnt_cam)))`, where
`length` is the row's `length` attribute falling back to the geometry length,
and consequently the cost is at least `0.1` for every input, including zero
length and arbitrarily large risk or camera values. -/
theorem C1_edge_cost_formula_and_floor (row : Lumen.EdgeRow) :
    Lumen.edge_cost row =
      max 0.1 ((row.length.getD row.geomLength) *
        ((1 + 1.20 * row.sum_inc) / (1 + 0.30 * row.cnt_cam)))
    ∧ (0.1 : ℚ) ≤ Lumen.edge_cost row :=
  ⟨Lumen.edge_cost_def row, Lumen.edge_cost_floor row⟩

/-- C2 counterexample: with zero risk points anywhere, an edge of length
1/20 m gets cost `max(0.1, 1/20) = 1/10`, not its length — the floor, not
the length, is the cost of a sufficiently short edge. -/
theorem C2_cost_eq_length_counterexample :
    Lumen.pipeline_weight (fun _ _ => false) (fun _ _ => false) true [] []
        ⟨0, 1, 0, 1/20⟩ = 1/10
    ∧ ((1 : ℚ)/10 ≠ 1/20) := by
  constructor
  · rw [Lumen.pipeline_weight_no_risk]
    rw [max_eq_left (by norm_num)]
    norm_num
  · norm_num

/-- C2 (amended): with zero risk points anywhere, every edge's incident and
camera aggregates are 0 (so `up = down = 1.0`) and its cost is
`max(0.1, length)`; when every edge is at least 0.1 m long the cost equals
the length exactly, and then the weighted search returns the same result as
the plain shortest-by-length search between the same snapped origin and
destination nodes. -/
theorem C2_amended_no_risk_baseline
    (near_i near_c : Lumen.RawEdge → Lumen.Point → Bool) (isNight : Bool)
    (nodes : List Nat) (es : List Lumen.RawEdge) (o d : Nat)
    (hlen : ∀ e ∈ es, (0.1 : ℚ) ≤ e.length) :
    (∀ e : Lumen.RawEdge, Lumen.sum_inc near_i isNight [] e = 0
      ∧ Lumen.cnt_cam near_c isNight [] e = 0
      ∧ Lumen.pipeline_weight near_i near_c isNight [] [] e = max 0.1 e.length)
    ∧ (∀ e ∈ es, Lumen.pipeline_weight near_i near_c isNight [] [] e = e.length)
    ∧ Lumen.route_phase nodes es
        (Lumen.pipeline_weight near_i near_c isNight [] []) o d
      = Lumen.route_phase nodes es (fun e => e.length) o d := by
  have hw : ∀ e ∈ es, Lumen.pipeline_weight near_i near_c isNight [] [] e = e.length := by
    intro e he
    rw [Lumen.pipeline_weight_no_risk]
    exact max_eq_right (hlen e he)
  exact ⟨fun e => ⟨Lumen.sum_inc_nil near_i isNight e, Lumen.cnt_cam_nil near_c isNight e,
      Lumen.pipeline_weight_no_risk near_i near_c isNight e⟩,
    hw, Lumen.route_phase_congr nodes es _ _ hw o d⟩

/-- C2 amended, instantiated: on a one-edge graph of length 5 with no risk
points, the cost equals the length and the weighted route phase coincides
with the by-length route phase. -/
theorem C2_amended_witness :
    Lumen.pipeline_weight (fun _ _ => false) (fun _ _ => false) true [] []
        ⟨0, 1, 0, 5⟩ = 5
    ∧ Lumen.route_phase [0, 1] [⟨0, 1, 0, 5⟩]
        (Lumen.pipeline_weight (fun _ _ => false) (fun _ _ => false) true [] []) 0 1
      = Lumen.route_phase [0, 1] [⟨0, 1, 0, 5⟩] (fun e => e.length) 0 1 := by
  have h := C2_amended_no_risk_baseline (fun _ _ => false) (fun _ _ => false) true
    [0, 1] [⟨0, 1, 0, 5⟩] 0 1
    (by
      intro e he
      have h1 : e = ⟨0, 1, 0, 5⟩ := by simpa using he
      rw [h1]
      norm_num)
  exact ⟨h.2.1 ⟨0, 1, 0, 5⟩ (by simp), h.2.2⟩

/-- C3 counterexample: with camera count fixed at 0 and a zero-length edge,
raising the incident weight from 0 to 1 leaves the cost clamped at the 0.1
floor, so the cost at the larger weight is not strictly greater. -/
theorem C3_strict_inc_counterexample :
    ¬ (Lumen.edge_cost ⟨some 0, 0, 0, 0⟩ < Lumen.edge_cost ⟨some 0, 0, 1, 0⟩) := by
  norm_num [Lumen.edge_cost, Lumen.B_INCIDENT, Lumen.C_CAMERA]

/-- C3 (amended): holding the camera count `c ≥ 0` fixed, with the edge's
(effective) length nonnegative, the cost is monotone in the incident weight;
and for `0 ≤ w1 < w2` it is strictly greater at `w2` whenever the unclamped
value at `w1` already meets the 0.1 floor (when both costs sit at the floor,
e.g. for a zero-length edge, they are merely equal). -/
theorem C3_amended_cost_mono_in_incident_weight
    (len : Option ℚ) (g w1 w2 c : ℚ)
    (hlen : 0 ≤ len.getD g) (hc : 0 ≤ c) (h12 : w1 < w2) :
    Lumen.edge_cost ⟨len, g, w1, c⟩ ≤ Lumen.edge_cost ⟨len, g, w2, c⟩
    ∧ (0 ≤ w1 → 0.1 ≤ Lumen.raw_cost (len.getD g) w1 c →
        Lumen.edge_cost ⟨len, g, w1, c⟩ < Lumen.edge_cost ⟨len, g, w2, c⟩) := by
  constructor
  · rw [Lumen.edge_cost_eq_max_raw, Lumen.edge_cost_eq_max_raw]
    exact max_le_max (le_refl _) (Lumen.raw_cost_mono_inc _ _ _ _ hlen hc h12.le)
  · intro hw1 hfloor
    have hlpos : 0 < len.getD g := by
      rcases lt_or_eq_of_le hlen with h | h
      · exact h
      · exfalso
        rw [Lumen.raw_cost, ← h, zero_mul] at hfloor
        norm_num at hfloor
    have hlt := Lumen.raw_cost_lt_raw_cost_of_inc_lt (len.getD g) w1 w2 c hlpos hc h12
    rw [Lumen.edge_cost_eq_max_raw, Lumen.edge_cost_eq_max_raw]
    rw [max_eq_right hfloor, max_eq_right (le_of_lt (lt_of_le_of_lt hfloor hlt))]
    exact hlt

/-- C3 amended, instantiated: at length 10, camera count 0, raising the
incident weight from 0 to 1 strictly raises the cost. -/
theorem C3_amended_witness :
    Lumen.edge_cost ⟨some 10, 10, 0, 0⟩ < Lumen.edge_cost ⟨some 10, 10, 1, 0⟩ :=
  (C3_amended_cost_mono_in_incident_weight (some 10) 10 0 1 0
      (by norm_num) (le_refl 0) (by norm_num)).2 (le_refl 0)
    (by norm_num [Lumen.raw_cost, Lumen.B_INCIDENT, Lumen.C_CAMERA])

/-- C4: holding the incident weight `w ≥ 0` fixed, increasing the camera
count strictly decreases the cost as long as the cost is above the 0.1 floor,
the cost never goes below the floor, and an edge of length 10 with camera
count 1000 (large enough to drive the unclamped value below 0.1) reports cost
exactly 0.1. -/
theorem C4_cost_anti_in_camera_count
    (len : Option ℚ) (g w c1 c2 : ℚ)
    (hw : 0 ≤ w) (hc1 : 0 ≤ c1) (h12 : c1 < c2) :
    ((0.1 : ℚ) < Lumen.edge_cost ⟨len, g, w, c1⟩ →
        Lumen.edge_cost ⟨len, g, w, c2⟩ < Lumen.edge_cost ⟨len, g, w, c1⟩)
    ∧ (0.1 : ℚ) ≤ Lumen.edge_cost ⟨len, g, w, c2⟩
    ∧ Lumen.edge_cost ⟨some 10, 10, 0, 1000⟩ = 0.1 := by
  refine ⟨?_, Lumen.edge_cost_floor _, ?_⟩
  · intro habove
    rw [Lumen.edge_cost_eq_max_raw] at habove ⊢
    have hraw1 : (0.1 : ℚ) < Lumen.raw_cost (len.getD g) w c1 := by
      by_contra hnot
      push_neg at hnot
      rw [max_eq_left hnot] at habove
      exact lt_irrefl _ habove
    have hpos : 0 < Lumen.raw_cost (len.getD g) w c1 := lt_trans (by norm_num) hraw1
    have hlt := Lumen.raw_cost_anti_cam (len.getD g) w c1 c2 hw hc1 h12 hpos
    rw [Lumen.edge_cost_eq_max_raw, max_eq_right hraw1.le]
    exact max_lt hraw1 hlt
  · norm_num [Lumen.edge_cost, Lumen.B_INCIDENT, Lumen.C_CAMERA]

/-- C4, instantiated: at length 10, incident weight 0, raising the camera
count from 0 to 1 strictly lowers the cost, the floor holds, and the
camera-saturated edge reports exactly 0.1. -/
theorem C4_witness :
    (Lumen.edge_cost ⟨some 10, 10, 0, 1⟩ < Lumen.edge_cost ⟨some 10, 10, 0, 0⟩)
    ∧ (0.1 : ℚ) ≤ Lumen.edge_cost ⟨some 10, 10, 0, 1⟩
    ∧ Lumen.edge_cost ⟨some 10, 10, 0, 1000⟩ = 0.1 := by
  have h := C4_cost_anti_in_camera_count (some 10) 10 0 0 1
    (le_refl 0) (le_refl 0) (by norm_num)
  exact ⟨h.1 (by norm_num [Lumen.edge_cost, Lumen.B_INCIDENT, Lumen.C_CAMERA]),
    h.2.1, h.2.2⟩

/-- C5: the incident decay weight is `exp(-ageHours / 12)` for nonnegative
ages, negative ages are clamped to 0 (weight 1), an absent or unparsable
timestamp gets the neutral weight 1, `decay(0) = 1`, the decay is strictly
decreasing in the age, and it tends to 0 as the age tends to infinity. -/
theorem C5_incident_decay_properties :
    Lumen.incident_decay none = 1
    ∧ (∀ a : ℝ, 0 ≤ a → Lumen.incident_decay (some a) = Real.exp (-a / 12))
    ∧ (∀ a : ℝ, a < 0 → Lumen.incident_decay (some a) = 1)
    ∧ Lumen.incident_decay (some 0) = 1
    ∧ (∀ a b : ℝ, 0 ≤ a → a < b →
        Lumen.incident_decay (some b) < Lumen.incident_decay (some a))
    ∧ Filter.Tendsto (fun a : ℝ => Lumen.incident_decay (some a))
        Filter.atTop (nhds 0) := by
  refine ⟨Lumen.incident_decay_none, ?_, Lumen.incident_decay_of_neg,
    Lumen.incident_decay_zero, Lumen.incident_decay_strict_anti,
    Lumen.incident_decay_tendsto_zero⟩
  intro a ha
  rw [Lumen.incident_decay_of_nonneg a ha]
  norm_num [Lumen.TAU_H]

/-- C5, instantiated: the decay at age 3 h is `exp(-3/12)`, a negative age
gives the neutral weight 1, and the decay at 12 h is strictly below the decay
at 0 h. -/
theorem C5_witness :
    Lumen.incident_decay (some 3) = Real.exp (-3 / 12)
    ∧ Lumen.incident_decay (some (-1)) = 1
    ∧ Lumen.incident_decay (some 12) < Lumen.incident_decay (some 0) :=
  ⟨C5_incident_decay_properties.2.1 3 (by norm_num),
   C5_incident_decay_properties.2.2.1 (-1) (by norm_num),
   C5_incident_decay_properties.2.2.2.2.1 0 12 (le_refl 0) (by norm_num)⟩

/-- C6: with the night flag set, the per-edge incident aggregate equals the
sum, over the incident points near the edge, of 1.25 times each point's
weight, and the per-edge camera aggregate equals the sum, over the camera
points near the edge, of 1.35 times each point's unit value — i.e. both
aggregates equal what scaling every individual point weight once and then
summing would give, each multiplier entering exactly once per point. -/
theorem C6_night_mode_scaling (near_i near_c : Lumen.RawEdge → Lumen.Point → Bool)
    (incPts : List (Lumen.Point × ℚ)) (camPts : List Lumen.Point) (e : Lumen.RawEdge) :
    Lumen.sum_inc near_i true incPts e
      = ((incPts.filter (fun pw => near_i e pw.1)).map
          (fun pw => Lumen.NIGHT_RISK_MULT * pw.2)).sum
    ∧ Lumen.cnt_cam near_c true camPts e
      = (((camPts.map (fun p => (p, (1:ℚ)))).filter (fun pw => near_c e pw.1)).map
          (fun pw => Lumen.NIGHT_CAMERA_MULT * pw.2)).sum := by
  constructor
  · show Lumen.counts_near_edges near_i
        (incPts.map (fun pw => (pw.1, pw.2 * Lumen.NIGHT_RISK_MULT))) e = _
    exact Lumen.counts_near_edges_map_mul near_i incPts e Lumen.NIGHT_RISK_MULT
  · show Lumen.counts_near_edges near_c (camPts.map (fun p => (p, (1:ℚ)))) e
        * Lumen.NIGHT_CAMERA_MULT = _
    exact Lumen.counts_near_edges_mul near_c (camPts.map (fun p => (p, (1:ℚ)))) e
      Lumen.NIGHT_CAMERA_MULT

/-- C9 counterexample: when the provider finds nothing for a query, nothing
is cached, so resolving the same literal query twice calls the provider
twice — not at most once. -/
theorem C9_at_most_once_counterexample :
    ((Lumen.resolve_coord (fun _ => none)
        (Lumen.resolve_coord (fun _ => none) ⟨[], 0⟩ "king st & union st, waterloo").2
        "king st & union st, waterloo").2).providerCalls = 2 := rfl

/-- C9 (amended): when a resolution of a query yields a coordinate, resolving
the same literal query again yields that identical cached coordinate and does
not call the provider again (so a query the provider answers is sent to it at
most once per run); and the cache never holds two entries — hence never two
different coordinates — for the same literal query string. -/
theorem C9_amended_cached_resolution (provider : String → Option Lumen.Coord)
    (st : Lumen.ResolveState) (q : String) (c : Lumen.Coord)
    (h : (Lumen.resolve_coord provider st q).1 = some c) :
    Lumen.resolve_coord provider (Lumen.resolve_coord provider st q).2 q
      = (some c, (Lumen.resolve_coord provider st q).2)
    ∧ ((st.cache.map Prod.fst).Nodup →
        (((Lumen.resolve_coord provider st q).2).cache.map Prod.fst).Nodup) := by
  rcases hg : Lumen.cache_get st.cache q with _ | c0
  · rcases hp : provider q with _ | c1
    · exfalso
      simp [Lumen.resolve_coord, hg, hp] at h
    · have hc : c1 = c := by simpa [Lumen.resolve_coord, hg, hp] using h
      subst hc
      have hst2 : (Lumen.resolve_coord provider st q).2
          = ⟨Lumen.cache_put st.cache q c1, st.providerCalls + 1⟩ := by
        simp [Lumen.resolve_coord, hg, hp]
      constructor
      · rw [hst2]
        simp [Lumen.resolve_coord, Lumen.cache_get_put_self]
      · intro hnd
        rw [hst2]
        exact Lumen.nodup_keys_cache_put st.cache q c1 hnd
  · have hc : c0 = c := by simpa [Lumen.resolve_coord, hg] using h
    subst hc
    have hst2 : (Lumen.resolve_coord provider st q).2 = st := by
      simp [Lumen.resolve_coord, hg]
    rw [hst2]
    exact ⟨by simp [Lumen.resolve_coord, hg], fun hnd => hnd⟩

/-- C9 amended, instantiated: with a provider that answers one concrete
query, a second resolution of that query returns the cached coordinate with
no further provider call, and the cache keys stay unique. -/
theorem C9_amended_witness :
    Lumen.resolve_coord (fun s => if s = "king st, waterloo" then some (1, 2) else none)
        (Lumen.resolve_coord (fun s => if s = "king st, waterloo" then some (1, 2) else none)
          ⟨[], 0⟩ "king st, waterloo").2 "king st, waterloo"
      = (some (1, 2),
          (Lumen.resolve_coord (fun s => if s = "king st, waterloo" then some (1, 2) else none)
            ⟨[], 0⟩ "king st, waterloo").2)
    ∧ (((Lumen.resolve_coord (fun s => if s = "king st, waterloo" then some (1, 2) else none)
          ⟨[], 0⟩ "king st, waterloo").2).cache.map Prod.fst).Nodup := by
  have h := C9_amended_cached_resolution
    (fun s => if s = "king st, waterloo" then some (1, 2) else none)
    ⟨[], 0⟩ "king st, waterloo" (1, 2) (by rfl)
  exact ⟨h.1, h.2 (by simp)⟩

/-- C7: during weight propagation, for every graph edge: an exact
`(fromNode, toNode, parallelIndex)` match assigns its cost directly; with no
exact match but candidates sharing `(fromNode, toNode)`, the candidate whose
length is closest to the edge's length is assigned; with no candidate at all
(and no pre-existing weight attribute), the edge's own raw length is
assigned. The fallback is total — every case produces a value, none
raises. -/
theorem C7_weight_propagation (rows : List Lumen.CostRow) (u v k : Nat)
    (data : Lumen.GEdgeData) :
    (∀ re : Lumen.CostRow,
        rows.find? (fun r => r.u == u && r.v == v && r.k == k) = some re →
        Lumen.propagate_weight rows u v k data = re.weight)
    ∧ (rows.find? (fun r => r.u == u && r.v == v && r.k == k) = none →
        rows.filter (fun r => r.u == u && r.v == v) ≠ [] →
        ∃ re ∈ rows.filter (fun r => r.u == u && r.v == v),
          Lumen.propagate_weight rows u v k data = re.weight
          ∧ ∀ r2 ∈ rows.filter (fun r => r.u == u && r.v == v),
              |re.length - data.length.getD (data.geomLength.getD 1)|
                ≤ |r2.length - data.length.getD (data.geomLength.getD 1)|)
    ∧ (rows.find? (fun r => r.u == u && r.v == v && r.k == k) = none →
        rows.filter (fun r => r.u == u && r.v == v) = [] →
        data.weight = none →
        ∀ L : ℚ, data.length = some L →
        Lumen.propagate_weight rows u v k data = L) := by
  refine ⟨?_, ?_, ?_⟩
  · intro re hfind
    unfold Lumen.propagate_weight
    rw [hfind]
  · intro hnone hne
    unfold Lumen.propagate_weight
    rw [hnone]
    rcases hfilt : rows.filter (fun r => r.u == u && r.v == v) with _ | ⟨a, as⟩
    · exact absurd hfilt hne
    · rcases has : as with _ | ⟨b, bs⟩
      · subst has
        rw [hfilt]
        refine ⟨a, by simp, rfl, ?_⟩
        intro r2 hr2
        have h2 : r2 = a := by simpa using hr2
        rw [h2]
      · subst has
        rw [hfilt]
        rcases Lumen.closestRow_spec (data.length.getD (data.geomLength.getD 1))
            (b :: bs) a with ⟨hmem, hbest, hall⟩
        refine ⟨Lumen.closestRow (data.length.getD (data.geomLength.getD 1)) a (b :: bs),
          hmem, rfl, ?_⟩
        intro r2 hr2
        rcases List.mem_cons.mp hr2 with h1 | h1
        · rw [h1]
          exact hbest
        · exact hall r2 h1
  · intro hnone hfilt hw L hL
    unfold Lumen.propagate_weight
    rw [hnone, hfilt]
    simp [hw, hL]

/-- C7, instantiated: among two rows sharing `(0, 1)` and no exact key match,
the row with length closest to the edge length 10 (length 9, weight 90) is
assigned; and with no candidate rows at all the edge's raw length 7 is
assigned. -/
theorem C7_witness :
    (∃ re ∈ ([⟨0, 1, 0, 5, 50⟩, ⟨0, 1, 1, 9, 90⟩] : List Lumen.CostRow).filter
        (fun r => r.u == 0 && r.v == 1),
      Lumen.propagate_weight [⟨0, 1, 0, 5, 50⟩, ⟨0, 1, 1, 9, 90⟩] 0 1 7
          ⟨some 10, none, none⟩ = re.weight
      ∧ ∀ r2 ∈ ([⟨0, 1, 0, 5, 50⟩, ⟨0, 1, 1, 9, 90⟩] : List Lumen.CostRow).filter
          (fun r => r.u == 0 && r.v == 1),
          |re.length - (10:ℚ)| ≤ |r2.length - (10:ℚ)|)
    ∧ Lumen.propagate_weight [] 0 1 0 ⟨some 7, none, none⟩ = 7 := by
  constructor
  · have h := (C7_weight_propagation [⟨0, 1, 0, 5, 50⟩, ⟨0, 1, 1, 9, 90⟩] 0 1 7
      ⟨some 10, none, none⟩).2.1 (by rfl) (by simp)
    simpa using h
  · exact (C7_weight_propagation [] 0 1 0 ⟨some 7, none, none⟩).2.2 rfl rfl rfl 7 rfl

/-- C8: the route phase fails whenever the search's resulting path has fewer
than 2 nodes (the code's `RuntimeError` guard); when the origin and
destination nodes are not connected, the search itself fails
(`NetworkXNoPath`) and an error is propagated; and whenever a route is
returned it is a full route — it starts at the origin node, ends at the
destination node, and has at least 2 nodes — so no partial or truncated
route is ever returned. -/
theorem C8_no_route_error (nodes : List Nat) (es : List Lumen.RawEdge)
    (w : Lumen.RawEdge → ℚ) (o d : Nat) :
    (¬ Lumen.Reachable es o d →
        Lumen.route_phase nodes es w o d
          = Except.error Lumen.RouteError.networkxNoPath)
    ∧ (∀ r : List Nat, Lumen.shortest_path nodes es w o d = some r →
        r.length < 2 →
        Lumen.route_phase nodes es w o d = Except.error Lumen.RouteError.noRoute)
    ∧ (∀ r : List Nat, Lumen.route_phase nodes es w o d = Except.ok r →
        Lumen.Reachable es o d ∧ r.head? = some o ∧ r.getLast? = some d
          ∧ 2 ≤ r.length) := by
  refine ⟨?_, ?_, ?_⟩
  · intro h
    unfold Lumen.route_phase
    rw [Lumen.shortest_path_eq_none nodes es w o d h]
  · intro r hs hlt
    unfold Lumen.route_phase
    rw [hs]
    simp only [if_pos hlt]
  · intro r hok
    unfold Lumen.route_phase at hok
    rcases hs : Lumen.shortest_path nodes es w o d with _ | p
    · rw [hs] at hok
      simp at hok
    · rw [hs] at hok
      have hok2 : (if p.length < 2 then Except.error Lumen.RouteError.noRoute
          else Except.ok p) = Except.ok r := hok
      by_cases hlt : p.length < 2
      · rw [if_pos hlt] at hok2
        simp at hok2
      · rw [if_neg hlt] at hok2
        have hp : p = r := by simpa using hok2
        subst hp
        rcases Lumen.shortest_path_sound nodes es w o d p hs with ⟨h1, h2, h3⟩
        exact ⟨h1, h2, h3, not_lt.mp hlt⟩

/-- C8, instantiated: origin node 2 and destination node 3 lie outside the
only component with an edge (0 → 1), so the route phase reports the search
failure; and an origin equal to the destination yields the one-node path,
tripping the fewer-than-2-nodes guard. -/
theorem C8_witness :
    Lumen.route_phase [0, 1, 2, 3] [⟨0, 1, 0, 1⟩] (fun e => e.length) 2 3
      = Except.error Lumen.RouteError.networkxNoPath
    ∧ Lumen.route_phase [0] [] (fun e => e.length) 0 0
      = Except.error Lumen.RouteError.noRoute := by
  constructor
  · apply (C8_no_route_error [0, 1, 2, 3] [⟨0, 1, 0, 1⟩] (fun e => e.length) 2 3).1
    intro h
    rcases Relation.ReflTransGen.cases_head h with h0 | ⟨c, hc, _⟩
    · exact absurd h0 (by norm_num)
    · rcases hc with ⟨e, he, hu, _⟩
      have h1 : e = ⟨0, 1, 0, 1⟩ := by simpa using he
      rw [h1] at hu
      exact absurd hu (by decide)
  · exact (C8_no_route_error [0] [] (fun e => e.length) 0 0).2.1 [0] rfl (by norm_num)

/-- C10: saving the geocode cache with an empty in-memory dictionary is a
no-op — `save_cache` returns the disk state unchanged, so previously stored
entries survive a run that resolved nothing. -/
theorem C10_save_empty_cache_noop (disk : Option (List (String × Lumen.Coord))) :
    Lumen.save_cache [] disk = disk := rfl
